import Mathlib

/-!
Shallow embedding of `ftpsync.py` (a caching website uploader over FTPS) and
proofs about its reconciliation core.

Python dictionaries are embedded as association lists in insertion order with
unique keys (`FingerprintMap`); Python strings are Lean `String`s, and the
string primitives used by the source (`str.removeprefix`, `str.split`,
`os.path.split`, `sorted`, path joining) are modelled character-wise on
`String.data` so that everything evaluates by kernel reduction.
-/

namespace Ftpsync

/-- Python `s.removeprefix(p)`: drop `p` from the front of `s` if it is a
prefix, otherwise return `s` unchanged.  At most one occurrence is removed. -/
def removeprefixStr (s p : String) : String :=
  if p.data.isPrefixOf s.data then ⟨s.data.drop p.data.length⟩ else s

/-- A Python `dict[str, str]` in insertion order: unique keys, later
assignments overwrite in place. -/
abbrev FingerprintMap := List (String × String)

/-- The key list of a map (Python `dict.keys()`, in insertion order). -/
def keys (m : FingerprintMap) : List String := m.map Prod.fst

/-- The Python dict invariant: keys are pairwise distinct. -/
def nodupKeys (m : FingerprintMap) : Prop := (keys m).Nodup

instance decNodupKeys (m : FingerprintMap) : Decidable (nodupKeys m) :=
  inferInstanceAs (Decidable (keys m).Nodup)

/-- Python `d.get(k)`: the value at `k`, or `None` when absent. -/
def dictGet (m : FingerprintMap) (k : String) : Option String :=
  match m with
  | [] => none
  | p :: rest => if p.1 = k then some p.2 else dictGet rest k

/-- Python `d[k] = v`: an existing key keeps its position and gets the new
value; a fresh key is appended at the end. -/
def dictInsert (m : FingerprintMap) (k v : String) : FingerprintMap :=
  if k ∈ keys m then m.map (fun p => if p.1 = k then (k, v) else p)
  else m ++ [(k, v)]

/-- `normalize_paths` (ftpsync.py:59-70): strip a leading `"./"` from every
key, rebuilding the dict by a comprehension (so colliding stripped keys
overwrite, later entries winning). -/
def normalize_paths (hashes : FingerprintMap) : FingerprintMap :=
  hashes.foldl (fun d p => dictInsert d (removeprefixStr p.1 "./") p.2) []

/-! ### Basic dictionary lemmas -/

theorem keys_nil : keys [] = [] := rfl

theorem keys_cons (p : String × String) (rest : FingerprintMap) :
    keys (p :: rest) = p.1 :: keys rest := rfl

theorem keys_append (d₁ d₂ : FingerprintMap) :
    keys (d₁ ++ d₂) = keys d₁ ++ keys d₂ := by
  simp [keys]

theorem keys_dictInsert (d : FingerprintMap) (k v : String) :
    keys (dictInsert d k v) = if k ∈ keys d then keys d else keys d ++ [k] := by
  unfold dictInsert
  by_cases h : k ∈ keys d
  · rw [if_pos h, if_pos h]
    unfold keys
    rw [List.map_map]
    apply List.map_congr_left
    intro p _
    by_cases hp : p.1 = k <;> simp [hp]
  · rw [if_neg h, if_neg h, keys_append]
    rfl

theorem mem_keys_dictInsert (d : FingerprintMap) (k v : String) (x : String) :
    x ∈ keys (dictInsert d k v) ↔ x ∈ keys d ∨ x = k := by
  rw [keys_dictInsert]
  by_cases h : k ∈ keys d
  · rw [if_pos h]
    constructor
    · exact fun hx => Or.inl hx
    · rintro (hx | rfl) <;> [exact hx; exact h]
  · rw [if_neg h]
    simp

theorem nodupKeys_dictInsert (d : FingerprintMap) (k v : String)
    (h : nodupKeys d) : nodupKeys (dictInsert d k v) := by
  unfold nodupKeys
  rw [keys_dictInsert]
  by_cases hk : k ∈ keys d
  · rw [if_pos hk]; exact h
  · rw [if_neg hk]
    refine List.Nodup.append h (List.nodup_singleton k) ?_
    intro a ha hb
    rw [List.mem_singleton] at hb
    subst hb
    exact hk ha

theorem dictGet_map_ne (d : FingerprintMap) (k v x : String) (hx : x ≠ k) :
    dictGet (d.map (fun p => if p.1 = k then (k, v) else p)) x = dictGet d x := by
  induction d with
  | nil => rfl
  | cons p rest ih =>
    by_cases hp : p.1 = k
    · have hkx : ¬(k = x) := fun he => hx he.symm
      simp [dictGet, hp, hkx, ih]
    · simp [dictGet, hp, ih]

theorem dictGet_map_self (d : FingerprintMap) (k v : String) (h : k ∈ keys d) :
    dictGet (d.map (fun p => if p.1 = k then (k, v) else p)) k = some v := by
  induction d with
  | nil => simp [keys] at h
  | cons p rest ih =>
    by_cases hp : p.1 = k
    · simp [dictGet, hp]
    · have hmem : k ∈ keys rest := by
        rw [keys_cons, List.mem_cons] at h
        rcases h with h | h
        · exact absurd h.symm hp
        · exact h
      simp [dictGet, hp, ih hmem]

theorem dictGet_append (d₁ d₂ : FingerprintMap) (x : String) :
    dictGet (d₁ ++ d₂) x =
      match dictGet d₁ x with
      | some v => some v
      | none => dictGet d₂ x := by
  induction d₁ with
  | nil => rfl
  | cons p rest ih =>
    by_cases hp : p.1 = x <;> simp [dictGet, hp, ih]

theorem dictGet_eq_none_iff (d : FingerprintMap) (x : String) :
    dictGet d x = none ↔ x ∉ keys d := by
  induction d with
  | nil => simp [dictGet, keys]
  | cons p rest ih =>
    rw [keys_cons]
    by_cases hp : p.1 = x
    · simp [dictGet, hp]
    · simp only [dictGet, hp, if_false, ih, List.mem_cons]
      constructor
      · rintro hnot (he | hm)
        · exact hp he.symm
        · exact hnot hm
      · intro hnot hm
        exact hnot (Or.inr hm)

theorem dictGet_dictInsert (d : FingerprintMap) (k v : String) (x : String) :
    dictGet (dictInsert d k v) x = if x = k then some v else dictGet d x := by
  unfold dictInsert
  by_cases h : k ∈ keys d
  · rw [if_pos h]
    by_cases hx : x = k
    · rw [if_pos hx, hx]
      rw [hx] at *
      exact dictGet_map_self d k v h
    · rw [if_neg hx, dictGet_map_ne d k v x hx]
  · rw [if_neg h, dictGet_append]
    by_cases hx : x = k
    · rw [if_pos hx, hx, (dictGet_eq_none_iff d k).mpr h]
      simp [dictGet]
    · rw [if_neg hx]
      have hkx : ¬(k = x) := fun he => hx he.symm
      cases hd : dictGet d x <;> simp [hd, dictGet, hkx]

theorem dictGet_of_mem (d : FingerprintMap) (k v : String)
    (hnd : nodupKeys d) (h : (k, v) ∈ d) : dictGet d k = some v := by
  induction d with
  | nil => simp at h
  | cons p rest ih =>
    have hnd2 : (p.1 :: keys rest).Nodup := hnd
    rw [List.mem_cons] at h
    rcases h with h | h
    · rw [← h]
      simp [dictGet]
    · have hpk : p.1 ≠ k := by
        intro he
        have hk : k ∈ keys rest := by
          have := List.mem_map_of_mem Prod.fst h
          simpa [keys] using this
        exact (List.nodup_cons.mp hnd2).1 (he ▸ hk)
      have hrest : nodupKeys rest := (List.nodup_cons.mp hnd2).2
      simp [dictGet, hpk, ih hrest h]

theorem snd_eq_of_nodupKeys (d : FingerprintMap) (k a b : String)
    (hnd : nodupKeys d) (ha : (k, a) ∈ d) (hb : (k, b) ∈ d) : a = b := by
  have h1 := dictGet_of_mem d k a hnd ha
  have h2 := dictGet_of_mem d k b hnd hb
  exact Option.some_injective _ (h1.symm.trans h2)

/-! ### Lemmas about the `"./"`-stripping primitive -/

theorem string_data_inj : ∀ {a b : String}, a.data = b.data → a = b
  | ⟨_⟩, ⟨_⟩, h => congrArg String.mk h

theorem isPrefixOf_append_self (l t : List Char) : l.isPrefixOf (l ++ t) = true := by
  induction l with
  | nil => simp [List.isPrefixOf]
  | cons c rest ih => simp [List.isPrefixOf, ih]

theorem isPrefixOf_two (a b : Char) (cs : List Char) :
    [a, b].isPrefixOf cs = true ↔ ∃ t, cs = a :: b :: t := by
  cases cs with
  | nil => simp [List.isPrefixOf]
  | cons c1 rest =>
    cases rest with
    | nil => simp [List.isPrefixOf]
    | cons c2 t =>
      constructor
      · intro h
        have h2 : a = c1 ∧ b = c2 := by simpa [List.isPrefixOf] using h
        exact ⟨t, by rw [h2.1, h2.2]⟩
      · rintro ⟨t', ht⟩
        obtain ⟨h1, h2, h3⟩ : c1 = a ∧ c2 = b ∧ t = t' := by simpa using ht
        subst h1
        subst h2
        simp [List.isPrefixOf]

theorem dotSlash_data : ("./" : String).data = ['.', '/'] := rfl

theorem removeprefix_dotSlash_append (s : String) :
    removeprefixStr ("./" ++ s) "./" = s := by
  unfold removeprefixStr
  rw [if_pos]
  · have hd : ("./" ++ s).data = ("./" : String).data ++ s.data := String.data_append _ _
    rw [hd, List.drop_left]
  · rw [String.data_append]
    exact isPrefixOf_append_self _ _

theorem removeprefix_of_no_pref (s : String)
    (h : ¬(("./" : String).data.isPrefixOf s.data = true)) :
    removeprefixStr s "./" = s := by
  unfold removeprefixStr
  rw [if_neg h]

theorem removeprefix_dotSlash_eq (s : String)
    (h : ("./" : String).data.isPrefixOf s.data = true) :
    ∃ t : List Char, s.data = '.' :: '/' :: t ∧ removeprefixStr s "./" = ⟨t⟩ := by
  have h' := h
  rw [dotSlash_data] at h'
  obtain ⟨t, ht⟩ := (isPrefixOf_two '.' '/' s.data).mp h'
  refine ⟨t, ht, ?_⟩
  unfold removeprefixStr
  rw [if_pos h, ht]
  rfl

theorem strip_preimage (k x : String)
    (_hk : ¬(("./" : String).data.isPrefixOf k.data = true))
    (he : removeprefixStr x "./" = k) : x = k ∨ x = "./" ++ k := by
  by_cases hx : ("./" : String).data.isPrefixOf x.data = true
  · obtain ⟨t, ht, hstrip⟩ := removeprefix_dotSlash_eq x hx
    right
    rw [hstrip] at he
    have htk : t = k.data := congrArg String.data he
    refine string_data_inj ?_
    rw [String.data_append, dotSlash_data, ht, htk]
    rfl
  · left
    rw [removeprefix_of_no_pref x hx] at he
    exact he

theorem strip_no_new_pref (k : String)
    (h : ¬(("././" : String).data.isPrefixOf k.data = true)) :
    ¬(("./" : String).data.isPrefixOf (removeprefixStr k "./").data = true) := by
  by_cases hk : ("./" : String).data.isPrefixOf k.data = true
  · obtain ⟨t, ht, hstrip⟩ := removeprefix_dotSlash_eq k hk
    rw [hstrip]
    intro habs
    rw [dotSlash_data] at habs
    obtain ⟨u, hu⟩ := (isPrefixOf_two '.' '/' t).mp habs
    apply h
    have : k.data = ("././" : String).data ++ u := by
      rw [ht, hu]
      rfl
    rw [this]
    exact isPrefixOf_append_self _ _
  · rw [removeprefix_of_no_pref k hk]
    exact hk

/-! ### The normalization fold -/

theorem mem_keys_normalize_foldl (l : FingerprintMap) (acc : FingerprintMap) (x : String) :
    x ∈ keys (l.foldl (fun d p => dictInsert d (removeprefixStr p.1 "./") p.2) acc) ↔
      x ∈ keys acc ∨ ∃ p ∈ l, removeprefixStr p.1 "./" = x := by
  induction l generalizing acc with
  | nil => simp
  | cons q rest ih =>
    rw [List.foldl_cons, ih, mem_keys_dictInsert]
    constructor
    · rintro ((ha | he) | ⟨p, hp, hs⟩)
      · exact Or.inl ha
      · exact Or.inr ⟨q, List.mem_cons_self q rest, he.symm⟩
      · exact Or.inr ⟨p, List.mem_cons_of_mem q hp, hs⟩
    · rintro (ha | ⟨p, hp, hs⟩)
      · exact Or.inl (Or.inl ha)
      · rw [List.mem_cons] at hp
        rcases hp with rfl | hp
        · exact Or.inl (Or.inr hs.symm)
        · exact Or.inr ⟨p, hp, hs⟩

theorem nodupKeys_normalize_foldl (l : FingerprintMap) (acc : FingerprintMap)
    (h : nodupKeys acc) :
    nodupKeys (l.foldl (fun d p => dictInsert d (removeprefixStr p.1 "./") p.2) acc) := by
  induction l generalizing acc with
  | nil => exact h
  | cons q rest ih =>
    rw [List.foldl_cons]
    exact ih _ (nodupKeys_dictInsert _ _ _ h)

theorem nodupKeys_normalize_paths (m : FingerprintMap) :
    nodupKeys (normalize_paths m) :=
  nodupKeys_normalize_foldl m [] (by simp [nodupKeys, keys])

theorem normalize_foldl_eq_append (l : FingerprintMap) (acc : FingerprintMap)
    (hid : ∀ p ∈ l, removeprefixStr p.1 "./" = p.1)
    (hnd : (keys l).Nodup)
    (hdisj : ∀ p ∈ l, p.1 ∉ keys acc) :
    l.foldl (fun d p => dictInsert d (removeprefixStr p.1 "./") p.2) acc = acc ++ l := by
  induction l generalizing acc with
  | nil => simp
  | cons q rest ih =>
    rw [List.foldl_cons]
    have hq : removeprefixStr q.1 "./" = q.1 := hid q (List.mem_cons_self q rest)
    have hqa : q.1 ∉ keys acc := hdisj q (List.mem_cons_self q rest)
    have hins : dictInsert acc (removeprefixStr q.1 "./") q.2 = acc ++ [q] := by
      rw [hq]
      unfold dictInsert
      rw [if_neg hqa]
    rw [hins]
    have hnd2 : (q.1 :: keys rest).Nodup := hnd
    have hdisj' : ∀ p ∈ rest, p.1 ∉ keys (acc ++ [q]) := by
      intro p hp
      rw [keys_append, List.mem_append]
      rintro (ha | hb)
      · exact hdisj p (List.mem_cons_of_mem q hp) ha
      · have hpq : p.1 = q.1 := by simpa [keys] using hb
        have hq' : q.1 ∈ keys rest := by
          have := List.mem_map_of_mem Prod.fst hp
          simpa [keys, hpq] using this
        exact (List.nodup_cons.mp hnd2).1 hq'
    rw [ih (acc ++ [q]) (fun p hp => hid p (List.mem_cons_of_mem q hp))
      (List.nodup_cons.mp hnd2).2 hdisj']
    simp

theorem normalize_paths_eq_self (m : FingerprintMap)
    (hnd : nodupKeys m)
    (h : ∀ p ∈ m, ¬(("./" : String).data.isPrefixOf p.1.data = true)) :
    normalize_paths m = m := by
  unfold normalize_paths
  rw [normalize_foldl_eq_append m []
    (fun p hp => removeprefix_of_no_pref p.1 (h p hp)) hnd (by simp [keys])]
  rfl

theorem normalize_paths_def (m : FingerprintMap) :
    normalize_paths m = m.foldl (fun d p => dictInsert d (removeprefixStr p.1 "./") p.2) [] := rfl

theorem mem_keys_normalize_paths (m : FingerprintMap) (x : String) :
    x ∈ keys (normalize_paths m) ↔ ∃ p ∈ m, removeprefixStr p.1 "./" = x := by
  rw [normalize_paths_def, mem_keys_normalize_foldl]
  simp [keys]

/-- Claim C1 (amended): `normalize_paths` removes exactly one leading `"./"`
token from each key and changes nothing else; it is idempotent on every map
none of whose keys begins with `"././"` (after a single strip no key can
start with `"./"` again), but not on arbitrary maps. -/
theorem normalize_paths_strips_one_token_and_idem (m : FingerprintMap)
    (hne : ∀ p ∈ m, ¬(("././" : String).data.isPrefixOf p.1.data = true)) :
    (∀ s : String, removeprefixStr ("./" ++ s) "./" = s) ∧
    (∀ k : String, ¬(("./" : String).data.isPrefixOf k.data = true) →
      removeprefixStr k "./" = k) ∧
    normalize_paths (normalize_paths m) = normalize_paths m := by
  refine ⟨removeprefix_dotSlash_append, fun k hk => removeprefix_of_no_pref k hk, ?_⟩
  apply normalize_paths_eq_self
  · exact nodupKeys_normalize_paths m
  · intro p hp
    have hkey : p.1 ∈ keys (normalize_paths m) := List.mem_map_of_mem Prod.fst hp
    obtain ⟨q, hq, hs⟩ := (mem_keys_normalize_paths m p.1).mp hkey
    rw [← hs]
    exact strip_no_new_pref q.1 (hne q hq)

/-- Claim C1, counterexample: on the key `"././x"` normalizing twice strips
two `"./"` tokens, so `normalize_paths` is not idempotent on all maps. -/
theorem normalize_paths_not_idempotent :
    normalize_paths (normalize_paths [("././x", "h")]) ≠
      normalize_paths [("././x", "h")] := by decide

/-- Witness for the amended C1 theorem at a concrete prefixed map. -/
theorem normalize_paths_strips_one_token_and_idem_witness :
    normalize_paths (normalize_paths [("./x", "h")]) = normalize_paths [("./x", "h")] :=
  (normalize_paths_strips_one_token_and_idem [("./x", "h")] (by decide)).2.2

/-! ### Key collisions under normalization (claim C10) -/

theorem dictGet_normalize_foldl (l acc : FingerprintMap) (x u : String)
    (h : dictGet (l.foldl (fun d p => dictInsert d (removeprefixStr p.1 "./") p.2) acc) x
      = some u) :
    (∃ p ∈ l, removeprefixStr p.1 "./" = x ∧ p.2 = u) ∨ dictGet acc x = some u := by
  induction l generalizing acc with
  | nil => exact Or.inr h
  | cons q rest ih =>
    rw [List.foldl_cons] at h
    rcases ih _ h with ⟨p, hp, hs, hval⟩ | hacc
    · exact Or.inl ⟨p, List.mem_cons_of_mem q hp, hs, hval⟩
    · rw [dictGet_dictInsert] at hacc
      by_cases hx : x = removeprefixStr q.1 "./"
      · rw [if_pos hx] at hacc
        exact Or.inl ⟨q, List.mem_cons_self q rest, hx.symm, Option.some_injective _ hacc⟩
      · rw [if_neg hx] at hacc
        exact Or.inr hacc

theorem normalize_paths_length_lt (m : FingerprintMap) (k v w : String)
    (hv : (k, v) ∈ m) (hw : ("./" ++ k, w) ∈ m)
    (hk : ¬(("./" : String).data.isPrefixOf k.data = true)) :
    (normalize_paths m).length < m.length := by
  have hmem : ∀ x, x ∈ keys (normalize_paths m) ↔
      x ∈ m.map (fun p => removeprefixStr p.1 "./") := by
    intro x
    rw [mem_keys_normalize_paths, List.mem_map]
  have hnodup : (keys (normalize_paths m)).Nodup := nodupKeys_normalize_paths m
  have hcard1 : (normalize_paths m).length = (keys (normalize_paths m)).toFinset.card := by
    rw [List.toFinset_card_of_nodup hnodup]
    simp [keys]
  have hsetEq : (keys (normalize_paths m)).toFinset =
      (m.map (fun p => removeprefixStr p.1 "./")).toFinset := by
    ext x
    simp only [List.mem_toFinset]
    exact hmem x
  have hdup : ¬ (m.map (fun p => removeprefixStr p.1 "./")).Nodup := by
    intro hnd2
    have hinj := List.inj_on_of_nodup_map hnd2
    have himg : removeprefixStr (k, v).1 "./" = removeprefixStr ("./" ++ k, w).1 "./" := by
      show removeprefixStr k "./" = removeprefixStr ("./" ++ k) "./"
      rw [removeprefix_of_no_pref k hk, removeprefix_dotSlash_append]
    have he := hinj hv hw himg
    have hfst : k = "./" ++ k := congrArg Prod.fst he
    have hlen := congrArg (fun s : String => s.data.length) hfst
    simp [String.data_append, dotSlash_data] at hlen
    omega
  have hcard2 : (m.map (fun p => removeprefixStr p.1 "./")).toFinset.card <
      (m.map (fun p => removeprefixStr p.1 "./")).length := by
    rw [List.card_toFinset]
    have hsub := List.dedup_sublist (m.map (fun p => removeprefixStr p.1 "./"))
    rcases lt_or_eq_of_le hsub.length_le with h | h
    · exact h
    · exact absurd (List.dedup_eq_self.mp (hsub.eq_of_length h)) hdup
  calc (normalize_paths m).length
      = (m.map (fun p => removeprefixStr p.1 "./")).toFinset.card := by rw [hcard1, hsetEq]
    _ < (m.map (fun p => removeprefixStr p.1 "./")).length := hcard2
    _ = m.length := List.length_map m _

/-- Claim C10: when a map contains both an unprefixed key `k` and the key
`"./" ++ k`, normalization collides them: the result is strictly smaller and
exactly one of the two fingerprints survives at `k`, the other being silently
dropped. -/
theorem normalize_paths_collision (m : FingerprintMap) (k v w : String)
    (hnd : nodupKeys m) (hv : (k, v) ∈ m) (hw : ("./" ++ k, w) ∈ m)
    (hk : ¬(("./" : String).data.isPrefixOf k.data = true)) :
    (normalize_paths m).length < m.length ∧
    ∃ u, dictGet (normalize_paths m) k = some u ∧ (u = v ∨ u = w) := by
  refine ⟨normalize_paths_length_lt m k v w hv hw hk, ?_⟩
  have hkmem : k ∈ keys (normalize_paths m) :=
    (mem_keys_normalize_paths m k).mpr ⟨(k, v), hv, removeprefix_of_no_pref k hk⟩
  have hsome : dictGet (normalize_paths m) k ≠ none :=
    fun h => (dictGet_eq_none_iff _ _).mp h hkmem
  obtain ⟨u, hu⟩ := Option.ne_none_iff_exists'.mp hsome
  refine ⟨u, hu, ?_⟩
  rw [normalize_paths_def] at hu
  rcases dictGet_normalize_foldl m [] k u hu with ⟨p, hp, hs, hval⟩ | hacc
  · rcases strip_preimage k p.1 hk hs with h1 | h2
    · left
      have hku : (k, u) ∈ m := by
        rw [← h1, ← hval]
        exact hp
      exact snd_eq_of_nodupKeys m k u v hnd hku hv
    · right
      have hku : ("./" ++ k, u) ∈ m := by
        rw [← h2, ← hval]
        exact hp
      exact snd_eq_of_nodupKeys m ("./" ++ k) u w hnd hku hw
  · simp [dictGet] at hacc

/-! ### The reconciliation planner: `new_files` and `deleted_files` -/

/-- Lexicographic (code-point) comparison of character lists: the order Python
`sorted` uses on `str` values. -/
def charsLe : List Char → List Char → Bool
  | [], _ => true
  | _ :: _, [] => false
  | a :: as, b :: bs => if a < b then true else if b < a then false else charsLe as bs

/-- Insert a string into an ascending list, before the first element it
compares at-or-below. -/
def insertSorted (x : String) : List String → List String
  | [] => [x]
  | y :: ys => if charsLe x.data y.data then x :: y :: ys else y :: insertSorted x ys

/-- Python `sorted` on a list of strings: ascending lexicographic order
(realized as a stable insertion sort). -/
def sortedStr (l : List String) : List String :=
  l.foldr insertSorted []

/-- `new_files` (ftpsync.py:42-48): the sorted paths whose hash differs from
the old state (or which the old state lacks). -/
def new_files (new old : FingerprintMap) : List String :=
  sortedStr ((new.filter (fun p => decide (dictGet old p.1 ≠ some p.2))).map Prod.fst)

/-- `deleted_files` (ftpsync.py:51-57): the sorted paths present in the old
state but absent from the new one. -/
def deleted_files (new old : FingerprintMap) : List String :=
  sortedStr ((old.filter (fun p => decide (p.1 ∉ keys new))).map Prod.fst)

theorem charsLe_total (as bs : List Char) :
    (charsLe as bs || charsLe bs as) = true := by
  induction as generalizing bs with
  | nil => simp [charsLe]
  | cons a as' ih =>
    cases bs with
    | nil => simp [charsLe]
    | cons b bs' =>
      rcases lt_trichotomy a b with h | h | h
      · simp [charsLe, h]
      · subst h
        simp only [charsLe, lt_irrefl, if_false]
        exact ih bs'
      · simp [charsLe, h, not_lt_of_gt h]

theorem charsLe_trans (as bs cs : List Char)
    (h1 : charsLe as bs = true) (h2 : charsLe bs cs = true) :
    charsLe as cs = true := by
  induction as generalizing bs cs with
  | nil => simp [charsLe]
  | cons a as' ih =>
    cases bs with
    | nil => simp [charsLe] at h1
    | cons b bs' =>
      cases cs with
      | nil => simp [charsLe] at h2
      | cons c cs' =>
        simp only [charsLe] at h1 h2 ⊢
        rcases lt_trichotomy a b with hab | hab | hab
        · rcases lt_trichotomy b c with hbc | hbc | hbc
          · simp [lt_trans hab hbc]
          · subst hbc
            simp [hab]
          · rw [if_neg (not_lt_of_gt hbc), if_pos hbc] at h2
            exact absurd h2 (by simp)
        · subst hab
          rcases lt_trichotomy a c with hac | hac | hac
          · simp [hac]
          · subst hac
            rw [if_neg (lt_irrefl a)] at h1 h2 ⊢
            rw [if_neg (lt_irrefl a)] at h1 h2 ⊢
            exact ih bs' cs' h1 h2
          · rw [if_neg (not_lt_of_gt hac), if_pos hac] at h2
            exact absurd h2 (by simp)
        · rw [if_neg (not_lt_of_gt hab), if_pos hab] at h1
          exact absurd h1 (by simp)

theorem insertSorted_perm (x : String) (l : List String) :
    (insertSorted x l).Perm (x :: l) := by
  induction l with
  | nil => exact List.Perm.refl _
  | cons y ys ih =>
    unfold insertSorted
    by_cases h : charsLe x.data y.data = true
    · rw [if_pos h]
    · rw [if_neg h]
      exact (ih.cons y).trans (List.Perm.swap x y ys)

theorem sortedStr_perm (l : List String) : (sortedStr l).Perm l := by
  induction l with
  | nil => exact List.Perm.refl _
  | cons a l ih =>
    have hstep : sortedStr (a :: l) = insertSorted a (sortedStr l) := rfl
    rw [hstep]
    exact (insertSorted_perm a (sortedStr l)).trans (ih.cons a)

theorem insertSorted_pairwise (x : String) (l : List String)
    (h : l.Pairwise (fun a b => charsLe a.data b.data = true)) :
    (insertSorted x l).Pairwise (fun a b => charsLe a.data b.data = true) := by
  induction l with
  | nil => simp [insertSorted]
  | cons y ys ih =>
    rw [List.pairwise_cons] at h
    unfold insertSorted
    by_cases hxy : charsLe x.data y.data = true
    · rw [if_pos hxy]
      rw [List.pairwise_cons]
      refine ⟨?_, List.pairwise_cons.mpr h⟩
      intro z hz
      rw [List.mem_cons] at hz
      rcases hz with rfl | hz
      · exact hxy
      · exact charsLe_trans x.data y.data z.data hxy (h.1 z hz)
    · rw [if_neg hxy]
      have hyx : charsLe y.data x.data = true := by
        have := charsLe_total x.data y.data
        rw [Bool.or_eq_true] at this
        rcases this with h1 | h1
        · exact absurd h1 hxy
        · exact h1
      rw [List.pairwise_cons]
      refine ⟨?_, ih h.2⟩
      intro z hz
      have hz' := (insertSorted_perm x ys).mem_iff.mp hz
      rw [List.mem_cons] at hz'
      rcases hz' with rfl | hz'
      · exact hyx
      · exact h.1 z hz'

theorem sortedStr_pairwise (l : List String) :
    (sortedStr l).Pairwise (fun a b => charsLe a.data b.data = true) := by
  induction l with
  | nil => simp [sortedStr]
  | cons a l ih =>
    have hstep : sortedStr (a :: l) = insertSorted a (sortedStr l) := rfl
    rw [hstep]
    exact insertSorted_pairwise a (sortedStr l) ih

theorem mem_sortedStr (l : List String) (x : String) :
    x ∈ sortedStr l ↔ x ∈ l := (sortedStr_perm l).mem_iff

theorem sortedStr_nodup (l : List String) (h : l.Nodup) : (sortedStr l).Nodup :=
  ((sortedStr_perm l).nodup_iff).mpr h

theorem mem_new_files (new old : FingerprintMap) (f : String) :
    f ∈ new_files new old ↔ ∃ h, (f, h) ∈ new ∧ dictGet old f ≠ some h := by
  unfold new_files
  rw [mem_sortedStr, List.mem_map]
  constructor
  · rintro ⟨p, hp, hf⟩
    rw [List.mem_filter] at hp
    refine ⟨p.2, ?_, ?_⟩
    · rw [← hf]
      exact hp.1
    · rw [← hf]
      exact of_decide_eq_true hp.2
  · rintro ⟨h, hmem, hne⟩
    exact ⟨(f, h), List.mem_filter.mpr ⟨hmem, decide_eq_true hne⟩, rfl⟩

theorem mem_deleted_files (new old : FingerprintMap) (f : String) :
    f ∈ deleted_files new old ↔ f ∈ keys old ∧ f ∉ keys new := by
  unfold deleted_files
  rw [mem_sortedStr, List.mem_map]
  constructor
  · rintro ⟨p, hp, hf⟩
    rw [List.mem_filter] at hp
    subst hf
    exact ⟨List.mem_map_of_mem Prod.fst hp.1, of_decide_eq_true hp.2⟩
  · rintro ⟨hmem, habs⟩
    obtain ⟨p, hp, hf⟩ := List.mem_map.mp hmem
    refine ⟨p, List.mem_filter.mpr ⟨hp, decide_eq_true ?_⟩, hf⟩
    rw [hf]
    exact habs

theorem new_files_nodup (new old : FingerprintMap) (hn : nodupKeys new) :
    (new_files new old).Nodup := by
  apply sortedStr_nodup
  exact ((List.filter_sublist new).map Prod.fst).nodup hn

theorem deleted_files_nodup (new old : FingerprintMap) (ho : nodupKeys old) :
    (deleted_files new old).Nodup := by
  apply sortedStr_nodup
  exact ((List.filter_sublist old).map Prod.fst).nodup ho

/-- Claim C2: `new_files` holds exactly the local keys whose fingerprint
differs from (or is absent in) the remote map, `deleted_files` exactly the
remote keys absent locally, both sorted ascending lexicographically without
duplicates, and a key present in both maps with equal fingerprints appears in
neither list. -/
theorem plan_correct (new old : FingerprintMap)
    (hn : nodupKeys new) (ho : nodupKeys old) :
    (∀ f, f ∈ new_files new old ↔ ∃ h, (f, h) ∈ new ∧ dictGet old f ≠ some h) ∧
    (new_files new old).Pairwise (fun a b => charsLe a.data b.data = true) ∧
    (new_files new old).Nodup ∧
    (∀ f, f ∈ deleted_files new old ↔ f ∈ keys old ∧ f ∉ keys new) ∧
    (deleted_files new old).Pairwise (fun a b => charsLe a.data b.data = true) ∧
    (deleted_files new old).Nodup ∧
    (∀ f h, (f, h) ∈ new → (f, h) ∈ old →
      f ∉ new_files new old ∧ f ∉ deleted_files new old) := by
  refine ⟨mem_new_files new old, sortedStr_pairwise _, new_files_nodup new old hn,
    mem_deleted_files new old, sortedStr_pairwise _, deleted_files_nodup new old ho,
    ?_⟩
  intro f h hfn hfo
  constructor
  · intro habs
    obtain ⟨h', hmem', hne'⟩ := (mem_new_files new old f).mp habs
    have : h' = h := snd_eq_of_nodupKeys new f h' h hn hmem' hfn
    subst this
    exact hne' (dictGet_of_mem old f h' ho hfo)
  · intro habs
    obtain ⟨-, habs2⟩ := (mem_deleted_files new old f).mp habs
    exact habs2 (List.mem_map_of_mem Prod.fst hfn)

/-- Witness for C2 at concrete two-entry maps. -/
theorem plan_correct_witness :
    ("b" ∈ new_files [("a", "1"), ("b", "2")] [("a", "1")] ↔
      ∃ h, ("b", h) ∈ ([("a", "1"), ("b", "2")] : FingerprintMap) ∧
        dictGet [("a", "1")] "b" ≠ some h) :=
  (plan_correct [("a", "1"), ("b", "2")] [("a", "1")] (by decide) (by decide)).1 "b"

/-- Witness for C10 at a concrete two-entry map. -/
theorem normalize_paths_collision_witness :
    (normalize_paths [("x", "1"), ("./x", "2")]).length <
      ([("x", "1"), ("./x", "2")] : FingerprintMap).length ∧
    ∃ u, dictGet (normalize_paths [("x", "1"), ("./x", "2")]) "x" = some u ∧
      (u = "1" ∨ u = "2") :=
  normalize_paths_collision [("x", "1"), ("./x", "2")] "x" "1" "2"
    (by decide) (by decide) (by decide) (by decide)

/-! ### Manifest loading, the codec, and the bootstrap decision -/

/-- The three observable outcomes of fetching and parsing the remote hashfile
in `load_hashes` (ftpsync.py:89-100): the `RETR` fails with
`ftplib.error_perm` (resource absent), the body is not valid JSON
(`json.JSONDecodeError`), or a JSON object of strings is decoded. -/
inductive RemoteManifest where
  | absent
  | malformed
  | wellFormed (m : FingerprintMap)
deriving DecidableEq

/-- `load_hashes` (ftpsync.py:89-100): both failure kinds are caught inside
the function and turned into `None`; a successful decode is normalized. -/
def load_hashes : RemoteManifest → Option FingerprintMap
  | .absent => none
  | .malformed => none
  | .wellFormed m => some (normalize_paths m)

/-- The two modes `run` (ftpsync.py:161-176) can select after loading. -/
inductive Mode where
  | bootstrap
  | incremental (old : FingerprintMap)
deriving DecidableEq

/-- The mode decision in `run` (ftpsync.py:170-176): `None` from
`load_hashes` means full upload (bootstrap), otherwise incremental
synchronization carrying the loaded map. -/
def run_mode (r : RemoteManifest) : Mode :=
  match load_hashes r with
  | none => .bootstrap
  | some m => .incremental m

/-- Claim C3: bootstrap mode is entered exactly when the manifest resource is
absent or its content undecodable, both failures being absorbed by
`load_hashes` (which yields `None` instead of propagating an error), and a
successful decode leads to incremental mode carrying the normalized
manifest. -/
theorem bootstrap_iff_absent_or_malformed :
    (∀ r, run_mode r = .bootstrap ↔ r = .absent ∨ r = .malformed) ∧
    (∀ m, run_mode (.wellFormed m) = .incremental (normalize_paths m)) := by
  constructor
  · intro r
    cases r with
    | absent => simp [run_mode, load_hashes]
    | malformed => simp [run_mode, load_hashes]
    | wellFormed m => simp [run_mode, load_hashes]
  · intro m
    rfl

/-- A JSON value, as far as the hashfile format is concerned: `json.dumps`
writes an object of string values; `json.load` can yield anything else
(`other`). -/
inductive Json where
  | str (s : String)
  | obj (fields : List (String × Json))
  | other

/-- `save_hashes` (ftpsync.py:102-105): `json.dumps(hashes)` as a JSON
value — an object mapping each path to its hash string. -/
def save_hashes (m : FingerprintMap) : Json :=
  .obj (m.map (fun p => (p.1, .str p.2)))

/-- Read a parsed JSON value back as a `dict[str, str]`, failing on any
non-conforming shape. -/
def decodeStringObj : Json → Option FingerprintMap
  | .obj fs => fs.foldr (fun p acc =>
      match p.2, acc with
      | .str v, some l => some ((p.1, v) :: l)
      | _, _ => none) (some [])
  | _ => none

/-- The decode side of `load_hashes` on a successfully parsed JSON value:
read the string map, then normalize it (ftpsync.py:98). -/
def load_hashes_json (j : Json) : Option FingerprintMap :=
  (decodeStringObj j).map normalize_paths

theorem decodeStringObj_save (m : FingerprintMap) :
    decodeStringObj (save_hashes m) = some m := by
  induction m with
  | nil => rfl
  | cons p rest ih =>
    have hstep : decodeStringObj (save_hashes (p :: rest)) =
        match Json.str p.2, decodeStringObj (save_hashes rest) with
        | Json.str v, some l => some ((p.1, v) :: l)
        | _, _ => none := rfl
    rw [hstep, ih]

/-- Claim C4: on an already-normalized map (no key begins with `"./"`),
decoding the encoded manifest reproduces the map exactly: the load-side
normalization is the identity there, including on the empty map. -/
theorem decode_encode_id (m : FingerprintMap) (hnd : nodupKeys m)
    (h : ∀ p ∈ m, ¬(("./" : String).data.isPrefixOf p.1.data = true)) :
    load_hashes_json (save_hashes m) = some m := by
  unfold load_hashes_json
  rw [decodeStringObj_save]
  simp [normalize_paths_eq_self m hnd h]

/-- Witness for C4 at the empty map and a one-entry map. -/
theorem decode_encode_id_witness :
    load_hashes_json (save_hashes []) = some [] ∧
    load_hashes_json (save_hashes [("a", "h1")]) = some [("a", "h1")] :=
  ⟨decode_encode_id [] (by decide) (by decide),
   decode_encode_id [("a", "h1")] (by decide) (by decide)⟩

/-! ### `get_folders`: ancestor directories of manifest paths -/

/-- Python `str.split('/')` on the character level: split at every `'/'`,
keeping empty pieces. -/
def splitChars : List Char → List (List Char)
  | [] => [[]]
  | c :: rest =>
    match splitChars rest with
    | [] => [[]]
    | g :: gs => if c = '/' then [] :: g :: gs else (c :: g) :: gs

/-- The components of a relative POSIX path as `pathlib.PurePosixPath`
normalizes them: split on `'/'` and drop empty and `"."` segments. -/
def pathComponents (p : String) : List String :=
  ((splitChars p.data).map (fun cs => (⟨cs⟩ : String))).filter
    (fun c => decide (c ≠ "" ∧ c ≠ "."))

/-- `str(PurePosixPath(...))` of a component list: `"."` for the empty list,
otherwise the components joined with `'/'`. -/
def renderPath : List String → String
  | [] => "."
  | c :: rest => rest.foldl (fun acc s => acc ++ "/" ++ s) c

/-- `Path(p).parents` as strings: the strict component-prefixes of `p`, from
the longest down to `"."`. -/
def parentsOf (p : String) : List String :=
  ((List.range (pathComponents p).length).reverse).map
    (fun k => renderPath ((pathComponents p).take k))

/-- `get_folders` (ftpsync.py:72-74): the set of `str(folder)` for every
`folder in Path(p).parents` over all keys `p` (`set(*[generator])` unpacks
the single generator, so this is the plain union). -/
def get_folders (hashes : FingerprintMap) : List String :=
  ((keys hashes).flatMap parentsOf).dedup

/-- Claim C7, counterexample: `Path('a/b').parents` ends with `Path('.')`,
so the root `"."` IS an element of `get_folders`, contrary to the claim that
it never is. -/
theorem get_folders_contains_root : "." ∈ get_folders [("a/b", "h")] := by decide

/-- Claim C7 (amended): `get_folders` returns exactly the deduplicated set of
ancestor prefixes of its keys including the root: the renderings of every
strict component-prefix of each path (the empty prefix rendering as `"."`);
in particular `"."` is an element whenever some key has at least one
component. -/
theorem get_folders_correct (hashes : FingerprintMap) :
    (∀ x, x ∈ get_folders hashes ↔
      ∃ p ∈ keys hashes, ∃ k < (pathComponents p).length,
        x = renderPath ((pathComponents p).take k)) ∧
    ((∃ p ∈ keys hashes, pathComponents p ≠ []) → "." ∈ get_folders hashes) := by
  have hmem : ∀ x, x ∈ get_folders hashes ↔ ∃ p ∈ keys hashes, x ∈ parentsOf p := by
    intro x
    unfold get_folders
    rw [List.mem_dedup, List.mem_flatMap]
  have hpar : ∀ p x, x ∈ parentsOf p ↔
      ∃ k < (pathComponents p).length, x = renderPath ((pathComponents p).take k) := by
    intro p x
    unfold parentsOf
    rw [List.mem_map]
    constructor
    · rintro ⟨k, hk, rfl⟩
      rw [List.mem_reverse, List.mem_range] at hk
      exact ⟨k, hk, rfl⟩
    · rintro ⟨k, hk, rfl⟩
      exact ⟨k, by rw [List.mem_reverse, List.mem_range]; exact hk, rfl⟩
  constructor
  · intro x
    rw [hmem]
    constructor
    · rintro ⟨p, hp, hx⟩
      exact ⟨p, hp, (hpar p x).mp hx⟩
    · rintro ⟨p, hp, hx⟩
      exact ⟨p, hp, (hpar p x).mpr hx⟩
  · rintro ⟨p, hp, hne⟩
    rw [hmem]
    refine ⟨p, hp, (hpar p ".").mpr ⟨0, ?_, rfl⟩⟩
    cases h : pathComponents p with
    | nil => exact absurd h hne
    | cons a l => simp [h]

/-- Witness for the amended C7 theorem at a two-level path. -/
theorem get_folders_correct_witness :
    "a" ∈ get_folders [("a/b", "h")] ↔
      ∃ p ∈ keys [("a/b", "h")], ∃ k < (pathComponents p).length,
        "a" = renderPath ((pathComponents p).take k) :=
  (get_folders_correct [("a/b", "h")]).1 "a"

/-! ### The local scan `folder_hashes` -/

/-- `str(dirpath / name)`: `pathlib` drops a `"."` (or empty) left operand,
otherwise joins with `'/'`. -/
def joinPath (path name : String) : String :=
  if path = "" ∨ path = "." then name else path ++ "/" ++ name

/-- A local directory listing in traversal order: files carry their content
fingerprint (`file_hash` is a pure function of the contents), directories
carry their own listing. -/
inductive LTree where
  | nil
  | fileCons (name hash : String) (rest : LTree)
  | dirCons (name : String) (sub rest : LTree)

/-- The file entries `Path().walk()` yields for one directory: each file of
the current listing keyed `str(dirpath / name)`. -/
def walkFiles : String → LTree → FingerprintMap
  | _, .nil => []
  | path, .fileCons n h rest => (joinPath path n, h) :: walkFiles path rest
  | path, .dirCons _ _ rest => walkFiles path rest

/-- The entries contributed by the subdirectories of one directory, walked
recursively (each subdirectory's files first, then its own
subdirectories). -/
def walkDirs : String → LTree → FingerprintMap
  | _, .nil => []
  | path, .fileCons _ _ rest => walkDirs path rest
  | path, .dirCons n sub rest =>
      walkFiles (joinPath path n) sub ++ walkDirs (joinPath path n) sub ++
        walkDirs path rest

/-- `folder_hashes` (ftpsync.py:29-39): walk the current directory (`Path()`,
i.e. `"."`), keying each file by `str(dirpath / name)`. -/
def folder_hashes (t : LTree) : FingerprintMap :=
  walkFiles "." t ++ walkDirs "." t

/-- A legal filesystem entry name: nonempty, not `"."`, and containing no
separator. -/
def validNameB (n : String) : Bool :=
  !(n == "") && !(n == ".") && !(n.data.contains '/')

/-- All names in the tree are legal filesystem names. -/
def LTree.validNamesB : LTree → Bool
  | .nil => true
  | .fileCons n _ rest => validNameB n && rest.validNamesB
  | .dirCons n sub rest => validNameB n && sub.validNamesB && rest.validNamesB

/-- Keys the scan may produce: nonempty, relative, not `"./"`-prefixed. -/
def goodKey (k : String) : Prop :=
  k.data ≠ [] ∧ k.data.head? ≠ some '/' ∧
    ¬(("./" : String).data.isPrefixOf k.data = true)

/-- Directory paths reachable during the walk. -/
def goodDir (path : String) : Prop := path = "." ∨ goodKey path

theorem string_eq_empty_iff (s : String) : s = "" ↔ s.data = [] := by
  constructor
  · intro h
    rw [h]
  · intro h
    exact string_data_inj h

theorem validNameB_goodKey (n : String) (hv : validNameB n = true) : goodKey n := by
  unfold validNameB at hv
  simp only [Bool.and_eq_true, Bool.not_eq_true', beq_eq_false_iff_ne] at hv
  obtain ⟨⟨hne, -⟩, hsl⟩ := hv
  refine ⟨fun h => hne (string_data_inj h), ?_, ?_⟩
  · intro hh
    cases hd : n.data with
    | nil => rw [hd] at hh; simp at hh
    | cons c cs =>
      rw [hd] at hh
      simp only [List.head?_cons, Option.some.injEq] at hh
      subst hh
      rw [hd] at hsl
      simp [List.contains_cons] at hsl
  · intro hp
    obtain ⟨t, ht⟩ := (isPrefixOf_two '.' '/' n.data).mp (by rwa [dotSlash_data] at hp)
    rw [ht] at hsl
    simp [List.contains_cons] at hsl

theorem joinPath_goodKey (path n : String) (hd : goodDir path)
    (hv : validNameB n = true) : goodKey (joinPath path n) := by
  unfold joinPath
  by_cases hcase : path = "" ∨ path = "."
  · rw [if_pos hcase]
    exact validNameB_goodKey n hv
  · rw [if_neg hcase]
    push_neg at hcase
    obtain ⟨hne0, hnd⟩ := hcase
    rcases hd with hdot | ⟨hne, hhead, hp⟩
    · exact absurd hdot hnd
    have hdata : (path ++ "/" ++ n).data = path.data ++ '/' :: n.data := by
      rw [String.data_append, String.data_append]
      simp
    refine ⟨?_, ?_, ?_⟩
    · rw [hdata]
      intro h
      exact hne (by simpa using (List.append_eq_nil.mp h).1)
    · rw [hdata]
      cases hpd : path.data with
      | nil => exact absurd hpd hne
      | cons c cs =>
        rw [hpd] at hhead
        simpa using hhead
    · rw [hdata]
      intro habs
      rw [dotSlash_data] at habs
      obtain ⟨t, ht⟩ := (isPrefixOf_two '.' '/' _).mp habs
      cases hpd : path.data with
      | nil => exact hne hpd
      | cons c cs =>
        cases cs with
        | nil =>
          rw [hpd] at ht
          simp only [List.cons_append, List.nil_append, List.cons.injEq] at ht
          have hdot : path = "." := string_data_inj (by rw [hpd, ht.1])
          exact hnd hdot
        | cons c2 cs2 =>
          rw [hpd] at ht
          simp only [List.cons_append, List.cons.injEq] at ht
          apply hp
          rw [dotSlash_data, hpd]
          exact (isPrefixOf_two '.' '/' _).mpr ⟨cs2, by rw [ht.1, ht.2.1]⟩

theorem goodKey_goodDir (k : String) (h : goodKey k) : goodDir k := Or.inr h

theorem walkFiles_keys_good (t : LTree) (path : String) (hd : goodDir path)
    (hv : t.validNamesB = true) : ∀ k ∈ keys (walkFiles path t), goodKey k := by
  induction t with
  | nil => intro k hk; simp [walkFiles, keys] at hk
  | fileCons n h rest ih =>
    intro k hk
    obtain ⟨hn, hrest⟩ : validNameB n = true ∧ rest.validNamesB = true := by
      simpa [LTree.validNamesB, Bool.and_eq_true] using hv
    rw [walkFiles, keys_cons, List.mem_cons] at hk
    rcases hk with rfl | hk
    · exact joinPath_goodKey path n hd hn
    · exact ih hrest k hk
  | dirCons n sub rest ihsub ihrest =>
    intro k hk
    obtain ⟨-, -, hrest⟩ :
        validNameB n = true ∧ sub.validNamesB = true ∧ rest.validNamesB = true := by
      simpa [LTree.validNamesB, Bool.and_eq_true, and_assoc] using hv
    rw [walkFiles] at hk
    exact ihrest hrest k hk

theorem walkDirs_keys_good (t : LTree) :
    ∀ path, goodDir path → t.validNamesB = true →
      ∀ k ∈ keys (walkDirs path t), goodKey k := by
  induction t with
  | nil => intro path hd hv k hk; simp [walkDirs, keys] at hk
  | fileCons n h rest ih =>
    intro path hd hv k hk
    obtain ⟨-, hrest⟩ : validNameB n = true ∧ rest.validNamesB = true := by
      simpa [LTree.validNamesB, Bool.and_eq_true] using hv
    rw [walkDirs] at hk
    exact ih path hd hrest k hk
  | dirCons n sub rest ihsub ihrest =>
    intro path hd hv k hk
    obtain ⟨hn, hsub, hrest⟩ :
        validNameB n = true ∧ sub.validNamesB = true ∧ rest.validNamesB = true := by
      simpa [LTree.validNamesB, Bool.and_eq_true, and_assoc] using hv
    have hgood : goodDir (joinPath path n) :=
      goodKey_goodDir _ (joinPath_goodKey path n hd hn)
    rw [walkDirs, keys_append, keys_append, List.mem_append, List.mem_append] at hk
    rcases hk with (hk | hk) | hk
    · exact walkFiles_keys_good sub _ hgood hsub k hk
    · exact ihsub _ hgood hsub k hk
    · exact ihrest path hd hrest k hk

/-- Claim C8: every key produced by the local scan is a nonempty relative
path (it does not start with `'/'`) and never begins with `"./"`; on modern
`pathlib`, `Path('.') / name` renders without the `"./"` prefix. -/
theorem folder_hashes_keys_unprefixed (t : LTree) (hv : t.validNamesB = true) :
    ∀ k ∈ keys (folder_hashes t),
      ¬(("./" : String).data.isPrefixOf k.data = true) ∧
      k.data ≠ [] ∧ k.data.head? ≠ some '/' := by
  intro k hk
  rw [folder_hashes, keys_append, List.mem_append] at hk
  have hgood : goodKey k := by
    rcases hk with hk | hk
    · exact walkFiles_keys_good t "." (Or.inl rfl) hv k hk
    · exact walkDirs_keys_good t "." (Or.inl rfl) hv k hk
  exact ⟨hgood.2.2, hgood.1, hgood.2.1⟩

/-- Witness for C8 at a concrete two-level tree. -/
theorem folder_hashes_keys_unprefixed_witness :
    "folder/c" ∈ keys (folder_hashes
      (.dirCons "folder" (.fileCons "c" "h2" .nil) (.fileCons "a" "h1" .nil))) ∧
    (¬(("./" : String).data.isPrefixOf ("folder/c" : String).data = true) ∧
      ("folder/c" : String).data ≠ [] ∧
      ("folder/c" : String).data.head? ≠ some '/') :=
  ⟨by decide,
   folder_hashes_keys_unprefixed
     (.dirCons "folder" (.fileCons "c" "h2" .nil) (.fileCons "a" "h1" .nil))
     (by decide) "folder/c" (by decide)⟩

/-! ### Remote operation traces (success path) -/

/-- One remote FTP operation, in the order the synchronizer issues them:
`delete` of a file, `mkd`, `storbinary` of a file, `storlines` of the
hashfile, `rmd`. -/
inductive Ev where
  | delFile (path : String)
  | mkd (path : String)
  | storFile (path : String)
  | storHashes
  | rmd (path : String)
deriving DecidableEq

/-- The head of `os.path.split(p)` (posixpath): everything before the final
`'/'`, with trailing slashes stripped unless the head is all slashes. -/
def splitParent (p : String) : String :=
  let head := (p.data.reverse.dropWhile (fun c => c != '/')).reverse
  if head = [] then ""
  else if head.all (fun c => c == '/') then ⟨head⟩
  else ⟨(head.reverse.dropWhile (fun c => c == '/')).reverse⟩

/-- `create_parent_folder` (ftpsync.py:119-128) on the success path: the
updated created-folder set and the `MKD` commands issued, outermost parent
first.  The structural fuel bounds the recursion depth; one unit per
character of the path is enough for every relative path. -/
def create_parent_folder_tr : Nat → List String → String → List String × List Ev
  | 0, created, _ => (created, [])
  | fuel + 1, created, path =>
    let folder := splitParent path
    if folder ≠ "" ∧ folder ∉ created then
      let r := create_parent_folder_tr fuel created folder
      (folder :: r.1, r.2 ++ [.mkd folder])
    else (created, [])

/-- `upload_files` (ftpsync.py:130-136): for each path in order, create its
missing parent folders, then store the file. -/
def upload_files_tr : List String → List String → List String × List Ev
  | created, [] => (created, [])
  | created, p :: ps =>
    let r := create_parent_folder_tr (p.length + 1) created p
    let r' := upload_files_tr r.1 ps
    (r'.1, r.2 ++ .storFile p :: r'.2)

/-- `upload_changed` (ftpsync.py:149-159) as its trace of remote operations
on the success path: delete the old hashfile, seed the created-folder set
from the old manifest's ancestor folders, upload every changed file, delete
every removed file, store the new manifest.  `loc` stands for the freshly
scanned `folder_hashes()` result. -/
def upload_changed_tr (hashfile : String) (old loc : FingerprintMap) : List Ev :=
  .delFile hashfile ::
    ((upload_files_tr (get_folders old) (new_files loc old)).2 ++
      ((deleted_files loc old).map .delFile ++ [.storHashes]))

theorem create_parent_folder_tr_events (fuel : Nat) (created : List String)
    (path : String) :
    ∀ ev ∈ (create_parent_folder_tr fuel created path).2, ∃ d, ev = .mkd d := by
  induction fuel generalizing created path with
  | zero => intro ev hev; simp [create_parent_folder_tr] at hev
  | succ fuel ih =>
    intro ev hev
    rw [create_parent_folder_tr] at hev
    by_cases h : splitParent path ≠ "" ∧ splitParent path ∉ created
    · rw [if_pos h] at hev
      simp only [List.mem_append, List.mem_singleton] at hev
      rcases hev with hev | hev
      · exact ih created (splitParent path) ev hev
      · exact ⟨splitParent path, hev⟩
    · rw [if_neg h] at hev
      simp at hev

theorem upload_files_tr_events (created : List String) (ps : List String) :
    ∀ ev ∈ (upload_files_tr created ps).2,
      (∃ d, ev = .mkd d) ∨ (∃ p, ev = .storFile p) := by
  induction ps generalizing created with
  | nil => intro ev hev; simp [upload_files_tr] at hev
  | cons p ps ih =>
    intro ev hev
    rw [upload_files_tr] at hev
    simp only [List.mem_append, List.mem_cons] at hev
    rcases hev with hev | hev | hev
    · exact Or.inl (create_parent_folder_tr_events _ _ _ ev hev)
    · exact Or.inr ⟨p, hev⟩
    · exact ih _ ev hev

/-- Claim C5: in incremental mode the remote operations occur in a fixed
order — the old manifest resource is deleted first, the created-folder set is
seeded from the old manifest's ancestor folders, then every upload (each
preceded by its parent-folder creations), then every delete of a removed
file, and the new manifest is written last; in particular every upload event
precedes every file-delete event, and the manifest write closes the trace. -/
theorem incremental_order (hashfile : String) (old loc : FingerprintMap) :
    (upload_changed_tr hashfile old loc).head? = some (.delFile hashfile) ∧
    (upload_changed_tr hashfile old loc).getLast? = some .storHashes ∧
    upload_changed_tr hashfile old loc =
      .delFile hashfile ::
        ((upload_files_tr (get_folders old) (new_files loc old)).2 ++
          ((deleted_files loc old).map .delFile ++ [.storHashes])) ∧
    (∀ (i j : Nat) (p q : String),
      (upload_changed_tr hashfile old loc)[i]? = some (Ev.storFile p) →
      (upload_changed_tr hashfile old loc)[j]? = some (Ev.delFile q) →
      q ≠ hashfile → i < j) := by
  refine ⟨rfl, ?_, rfl, ?_⟩
  · have hsplit : upload_changed_tr hashfile old loc =
        (Ev.delFile hashfile ::
          ((upload_files_tr (get_folders old) (new_files loc old)).2 ++
            (deleted_files loc old).map Ev.delFile)) ++ [Ev.storHashes] := by
      simp [upload_changed_tr]
    rw [hsplit, List.getLast?_concat]
  · intro i j p q hi hj hq
    have hsplit : upload_changed_tr hashfile old loc =
        (Ev.delFile hashfile ::
          (upload_files_tr (get_folders old) (new_files loc old)).2) ++
          ((deleted_files loc old).map Ev.delFile ++ [Ev.storHashes]) := by
      simp [upload_changed_tr]
    rw [hsplit] at hi hj
    set A := Ev.delFile hashfile ::
      (upload_files_tr (get_folders old) (new_files loc old)).2 with hA
    have hiA : i < A.length := by
      by_contra hge
      rw [List.getElem?_append, if_neg (by omega)] at hi
      have hmem := List.getElem?_mem hi
      rw [List.mem_append] at hmem
      rcases hmem with hm | hm
      · obtain ⟨d, -, hd⟩ := List.mem_map.mp hm
        simp at hd
      · simp at hm
    have hjB : A.length ≤ j := by
      by_contra hlt
      push_neg at hlt
      rw [List.getElem?_append, if_pos hlt] at hj
      have hmem := List.getElem?_mem hj
      rw [hA, List.mem_cons] at hmem
      rcases hmem with hm | hm
      · have : q = hashfile := by
          injection hm
        exact hq this
      · rcases upload_files_tr_events _ _ _ hm with ⟨d, hd⟩ | ⟨p', hp'⟩
        · simp at hd
        · simp at hp'
    omega

/-- Witness for C5 at a concrete incremental run with one upload and one
delete. -/
theorem incremental_order_witness :
    (upload_changed_tr ".hashes.json" [("a/b", "1")] [("x", "2")]).head? =
      some (.delFile ".hashes.json") ∧
    (upload_changed_tr ".hashes.json" [("a/b", "1")] [("x", "2")]).getLast? =
      some .storHashes ∧
    1 < 2 :=
  ⟨(incremental_order ".hashes.json" [("a/b", "1")] [("x", "2")]).1,
   (incremental_order ".hashes.json" [("a/b", "1")] [("x", "2")]).2.1,
   (incremental_order ".hashes.json" [("a/b", "1")] [("x", "2")]).2.2.2
     1 2 "x" "a/b" (by decide) (by decide) (by decide)⟩

/-! ### Recursive remote erasure `delete_contents` (claim C9) -/

/-- A remote directory listing in `MLSD` order: each entry is a file or a
directory carrying its own listing. -/
inductive RTree where
  | nil
  | fileCons (name : String) (rest : RTree)
  | dirCons (name : String) (sub rest : RTree)

/-- All names in the remote listing are legal entry names. -/
def RTree.validNamesB : RTree → Bool
  | .nil => true
  | .fileCons n rest => validNameB n && rest.validNamesB
  | .dirCons n sub rest => validNameB n && sub.validNamesB && rest.validNamesB

/-- `delete_contents` (ftpsync.py:107-117) as its trace of remote
operations: files are deleted in listing order; a directory is erased
recursively and then removed with `rmd`; the argument itself is never
removed. -/
def delete_contents : String → RTree → List Ev
  | _, .nil => []
  | path, .fileCons n rest =>
      .delFile (joinPath path n) :: delete_contents path rest
  | path, .dirCons n sub rest =>
      delete_contents (joinPath path n) sub ++
        (.rmd (joinPath path n) :: delete_contents path rest)

/-- The erasure walk starting at `(path, t)` reaches the listing `u` at
remote path `q`. -/
inductive Reaches : String → RTree → String → RTree → Prop where
  | here (path : String) (t : RTree) : Reaches path t path t
  | thruFile (path n : String) (rest : RTree) (q : String) (u : RTree) :
      Reaches path rest q u → Reaches path (.fileCons n rest) q u
  | thruDirSkip (path n : String) (sub rest : RTree) (q : String) (u : RTree) :
      Reaches path rest q u → Reaches path (.dirCons n sub rest) q u
  | thruDirEnter (path n : String) (sub rest : RTree) (q : String) (u : RTree) :
      Reaches (joinPath path n) sub q u → Reaches path (.dirCons n sub rest) q u

theorem reaches_decomp (root : String) (t : RTree) (q : String) (u : RTree)
    (h : Reaches root t q u) :
    ∃ pre post, delete_contents root t = pre ++ (delete_contents q u ++ post) := by
  induction h with
  | here path t => exact ⟨[], [], by simp⟩
  | thruFile path n rest q u h ih =>
    obtain ⟨pre, post, heq⟩ := ih
    exact ⟨.delFile (joinPath path n) :: pre, post, by simp [delete_contents, heq]⟩
  | thruDirSkip path n sub rest q u h ih =>
    obtain ⟨pre, post, heq⟩ := ih
    refine ⟨delete_contents (joinPath path n) sub ++ (.rmd (joinPath path n) :: pre),
      post, ?_⟩
    simp [delete_contents, heq]
  | thruDirEnter path n sub rest q u h ih =>
    obtain ⟨pre, post, heq⟩ := ih
    refine ⟨pre, post ++ (.rmd (joinPath path n) :: delete_contents path rest), ?_⟩
    simp [delete_contents, heq]

/-- Lengths: joining a valid name strictly extends a non-root path, and
produces a non-root name under a root path. -/
theorem joinPath_length (path n : String) (h : ¬(path = "" ∨ path = ".")) :
    (joinPath path n).length = path.length + 1 + n.length := by
  unfold joinPath
  rw [if_neg h, String.length_append, String.length_append]
  rfl

/-- Every `rmd` target in the erasure trace is strictly below the starting
path: longer than it, or (when starting at the root `""` / `"."`) a proper
entry name. -/
def rootedAway (path d : String) : Prop :=
  path.length < d.length ∨ ((path = "" ∨ path = ".") ∧ d ≠ "" ∧ d ≠ ".")

theorem validNameB_facts (n : String) (hv : validNameB n = true) :
    n ≠ "" ∧ n ≠ "." ∧ 1 ≤ n.length := by
  unfold validNameB at hv
  simp only [Bool.and_eq_true, Bool.not_eq_true', beq_eq_false_iff_ne] at hv
  obtain ⟨⟨hne, hnd⟩, -⟩ := hv
  refine ⟨hne, hnd, ?_⟩
  have : n.data ≠ [] := fun h => hne (string_data_inj h)
  have hlen : n.data.length ≠ 0 := fun h => this (List.length_eq_zero.mp h)
  show 1 ≤ n.data.length
  omega

theorem rootedAway_join (path n : String) (hv : validNameB n = true) :
    rootedAway path (joinPath path n) := by
  obtain ⟨hne, hnd, hlen⟩ := validNameB_facts n hv
  by_cases h : path = "" ∨ path = "."
  · right
    refine ⟨h, ?_, ?_⟩ <;> unfold joinPath <;> rw [if_pos h] <;> assumption
  · left
    rw [joinPath_length path n h]
    omega

theorem rootedAway_trans_join (path n d : String) (hv : validNameB n = true)
    (hd : rootedAway (joinPath path n) d) : rootedAway path d := by
  obtain ⟨hne, hnd, hlen⟩ := validNameB_facts n hv
  by_cases h : path = "" ∨ path = "."
  · have hj : joinPath path n = n := by unfold joinPath; rw [if_pos h]
    rw [hj] at hd
    rcases hd with hd | ⟨hroot, -⟩
    · right
      refine ⟨h, ?_, ?_⟩
      · intro habs
        rw [habs] at hd
        have h0 : ("" : String).length = 0 := rfl
        omega
      · intro habs
        rw [habs] at hd
        have h1 : ("." : String).length = 1 := rfl
        omega
    · rcases hroot with hr | hr <;> [exact absurd hr hne; exact absurd hr hnd]
  · have hj := joinPath_length path n h
    rcases hd with hd | ⟨hroot, -⟩
    · left
      rw [hj] at hd
      omega
    · exfalso
      rcases hroot with hr | hr
      · have hlen0 := congrArg String.length hr
        rw [hj] at hlen0
        have h0 : ("" : String).length = 0 := rfl
        omega
      · have hlen1 := congrArg String.length hr
        rw [hj] at hlen1
        have h1 : ("." : String).length = 1 := rfl
        omega

theorem delete_contents_rmd_rootedAway (t : RTree) :
    ∀ path, t.validNamesB = true →
      ∀ d, Ev.rmd d ∈ delete_contents path t → rootedAway path d := by
  induction t with
  | nil => intro path hv d hd; simp [delete_contents] at hd
  | fileCons n rest ih =>
    intro path hv d hd
    obtain ⟨-, hrest⟩ : validNameB n = true ∧ rest.validNamesB = true := by
      simpa [RTree.validNamesB, Bool.and_eq_true] using hv
    rw [delete_contents, List.mem_cons] at hd
    rcases hd with hd | hd
    · exact absurd hd (by simp)
    · exact ih path hrest d hd
  | dirCons n sub rest ihsub ihrest =>
    intro path hv d hd
    obtain ⟨hn, hsub, hrest⟩ :
        validNameB n = true ∧ sub.validNamesB = true ∧ rest.validNamesB = true := by
      simpa [RTree.validNamesB, Bool.and_eq_true, and_assoc] using hv
    rw [delete_contents, List.mem_append, List.mem_cons] at hd
    rcases hd with hd | hd | hd
    · exact rootedAway_trans_join path n d hn (ihsub (joinPath path n) hsub d hd)
    · have : d = joinPath path n := by injection hd
      rw [this]
      exact rootedAway_join path n hn
    · exact ihrest path hrest d hd

/-- Claim C9: the erasure is depth-first — for every directory the walk
encounters, the complete erasure of that directory's contents appears in the
trace immediately before the `rmd` of that directory — and no `rmd` is ever
issued for the root argument itself. -/
theorem delete_contents_depth_first (root : String) (t : RTree)
    (hv : t.validNamesB = true) :
    (∀ d, Ev.rmd d ∈ delete_contents root t → d ≠ root) ∧
    (∀ q n sub rest, Reaches root t q (.dirCons n sub rest) →
      ∃ pre post, delete_contents root t =
        pre ++ (delete_contents (joinPath q n) sub ++
          (Ev.rmd (joinPath q n) :: post))) := by
  constructor
  · intro d hd habs
    rcases delete_contents_rmd_rootedAway t root hv d hd with hlt | ⟨hroot, hne, hnd⟩
    · rw [habs] at hlt
      omega
    · rcases hroot with hr | hr
      · exact hne (habs.trans hr)
      · exact hnd (habs.trans hr)
  · intro q n sub rest hreach
    obtain ⟨pre, post, heq⟩ := reaches_decomp root t q _ hreach
    refine ⟨pre, delete_contents q rest ++ post, ?_⟩
    rw [heq]
    simp [delete_contents]

/-- Witness for C9 at a concrete two-level remote tree. -/
theorem delete_contents_depth_first_witness :
    ("folder" : String) ≠ "" ∧
    ∃ pre post,
      delete_contents ""
          (.dirCons "folder" (.fileCons "child" .nil) (.fileCons "file1" .nil)) =
        pre ++ (delete_contents (joinPath "" "folder") (.fileCons "child" .nil) ++
          (Ev.rmd (joinPath "" "folder") :: post)) :=
  ⟨(delete_contents_depth_first ""
      (.dirCons "folder" (.fileCons "child" .nil) (.fileCons "file1" .nil))
      (by decide)).1 "folder" (by decide),
   (delete_contents_depth_first ""
      (.dirCons "folder" (.fileCons "child" .nil) (.fileCons "file1" .nil))
      (by decide)).2 "" "folder" (.fileCons "child" .nil) (.fileCons "file1" .nil)
      (Reaches.here "" _)⟩

/-! ### Folder-creation error handling (claim C6) -/

/-- The outcome the server reports for one `MKD` command. -/
inductive MkdOutcome where
  | ok
  | alreadyExists
  | permissionDenied
  | otherFailure
deriving DecidableEq

/-- The exception class `ftplib` raises for an `MKD` outcome: both
`alreadyExists` and `permissionDenied` are permanent (5xx) replies and raise
`ftplib.error_perm`; `otherFailure` stands for anything else (`error_temp`,
connection errors, ...). -/
inductive FtpExc where
  | errorPerm
  | otherError
deriving DecidableEq

def MkdOutcome.exc : MkdOutcome → Option FtpExc
  | .ok => none
  | .alreadyExists => some .errorPerm
  | .permissionDenied => some .errorPerm
  | .otherFailure => some .otherError

/-- `create_parent_folder` (ftpsync.py:119-128) with failure propagation:
the `try` block wraps the recursive call, the set insertion and the `mkd`;
only `ftplib.error_perm` is caught (`pass`), every other exception
propagates.  Returns the updated created-folder set and the escaped
exception, if any. -/
def create_parent_folder (mkd : String → MkdOutcome) :
    Nat → List String → String → List String × Option FtpExc
  | 0, created, _ => (created, none)
  | fuel + 1, created, path =>
    let folder := splitParent path
    if folder ≠ "" ∧ folder ∉ created then
      match create_parent_folder mkd fuel created folder with
      | (c, some e) => if e = .errorPerm then (c, none) else (c, some e)
      | (c, none) =>
        match (mkd folder).exc with
        | none => (folder :: c, none)
        | some e =>
            if e = .errorPerm then (folder :: c, none) else (folder :: c, some e)
    else (created, none)

theorem create_parent_folder_no_perm (mkd : String → MkdOutcome) (fuel : Nat)
    (created : List String) (path : String) :
    (create_parent_folder mkd fuel created path).2 ≠ some .errorPerm := by
  induction fuel generalizing created path with
  | zero => simp [create_parent_folder]
  | succ fuel ih =>
    rw [create_parent_folder]
    by_cases hguard : splitParent path ≠ "" ∧ splitParent path ∉ created
    · rw [if_pos hguard]
      rcases hrec : create_parent_folder mkd fuel created (splitParent path) with ⟨c, oe⟩
      cases oe with
      | some e =>
        by_cases he : e = FtpExc.errorPerm
        · simp [he]
        · simp only [if_neg he]
          intro hcontra
          exact he (Option.some_injective _ hcontra)
      | none =>
        cases hexc : (mkd (splitParent path)).exc with
        | none => simp [hexc]
        | some e =>
          by_cases he : e = FtpExc.errorPerm
          · simp [hexc, he]
          · simp only [hexc, if_neg he]
            intro hcontra
            exact he (Option.some_injective _ hcontra)
    · rw [if_neg hguard]
      simp

/-- Claim C6 (amended): folder creation swallows every `ftplib.error_perm`
(every permanent 5xx reply — which covers both already-exists AND
permission-denied) and the run continues; only a non-`error_perm` failure
(e.g. a temporary error or a connection failure) propagates and aborts the
run. -/
theorem create_parent_folder_error_handling (mkd : String → MkdOutcome) :
    (∀ fuel created path,
      (∀ f, (mkd f).exc = none ∨ (mkd f).exc = some .errorPerm) →
      (create_parent_folder mkd fuel created path).2 = none) ∧
    (∀ fuel created path, splitParent path ≠ "" → splitParent path ∉ created →
      (∀ f, mkd f = .otherFailure) →
      (create_parent_folder mkd (fuel + 1) created path).2 = some .otherError) := by
  constructor
  · intro fuel
    induction fuel with
    | zero => intro created path h; simp [create_parent_folder]
    | succ fuel ih =>
      intro created path h
      rw [create_parent_folder]
      by_cases hguard : splitParent path ≠ "" ∧ splitParent path ∉ created
      · rw [if_pos hguard]
        rcases hrec : create_parent_folder mkd fuel created (splitParent path)
          with ⟨c, oe⟩
        have hnone : oe = none := by
          have := ih created (splitParent path) h
          rw [hrec] at this
          exact this
        subst hnone
        rcases h (splitParent path) with hexc | hexc <;> simp [hexc]
      · rw [if_neg hguard]
  · intro fuel created path hne hnc h
    rw [create_parent_folder]
    rw [if_pos ⟨hne, hnc⟩]
    rcases hrec : create_parent_folder mkd fuel created (splitParent path)
      with ⟨c, oe⟩
    cases oe with
    | some e =>
      have hep : e ≠ FtpExc.errorPerm := by
        intro habs
        apply create_parent_folder_no_perm mkd fuel created (splitParent path)
        rw [hrec, habs]
      have : e = FtpExc.otherError := by cases e <;> [exact absurd rfl hep; rfl]
      simp [hep, this]
    | none =>
      have hexc : (mkd (splitParent path)).exc = some FtpExc.otherError := by
        rw [h (splitParent path)]
        rfl
      simp [hexc]

/-- Claim C6, counterexample: a permission-denied reply to `MKD` is a
permanent 5xx reply, i.e. an `ftplib.error_perm`, and is swallowed: the
routine completes with no escaped failure, while the claim says any
non-already-exists failure must abort the run. -/
theorem permission_denied_not_fatal :
    (create_parent_folder (fun _ => .permissionDenied) 4 [] "a/b").2 = none := by
  decide

/-- Witness for the amended C6 theorem: already-exists replies are swallowed,
a non-permanent failure propagates. -/
theorem create_parent_folder_error_handling_witness :
    (create_parent_folder (fun _ => MkdOutcome.alreadyExists) 4 [] "a/b").2 = none ∧
    (create_parent_folder (fun _ => MkdOutcome.otherFailure) 4 [] "a/b").2 =
      some FtpExc.otherError :=
  ⟨(create_parent_folder_error_handling (fun _ => MkdOutcome.alreadyExists)).1
      4 [] "a/b" (fun _ => Or.inr rfl),
   (create_parent_folder_error_handling (fun _ => MkdOutcome.otherFailure)).2
      3 [] "a/b" (by decide) (by decide) (fun _ => rfl)⟩

end Ftpsync
